import Mathlib

/-! # codewords: generator and dictionary builder

A shallow embedding of `codewords.go` (the `Factory` and `Generate`) and of
`mkdict.go` (`NewWNDict`, `parseWords`, `filter`), with the properties of the
specification stated and proved over it.

Conventions of the embedding.

* A Go `string` is a sequence of bytes: `GoString` is a list of byte values
  (naturals below 256), `len` is `List.length` and `+` is `++`.
* A Go panic is a value of `GoPanic`, an `error` a value of `GoError`; a
  function that can panic or fail returns `Except`.
* Library calls (`math/rand`, `strings`, `bufio`, `regexp`, `archive/tar`) are
  modelled from their documented behaviour, next to the function that calls
  them.
-/

namespace Codewords

/-! ## Strings -/

/-- A Go string: its bytes, in order. -/
abbrev GoString := List Nat

/-- The bytes of an ASCII string literal (for ASCII text the UTF-8 bytes are
the code points). -/
def lit (s : String) : GoString := s.toList.map Char.toNat

/-- The byte of the hyphen in the format `"%s-%s"`. -/
def hyphen : Nat := '-'.toNat

/-! ## codewords.go -/

/-- The run-time panics `Generate` can reach. -/
inductive GoPanic where
  /-- The panic of `rand.Intn(n)` for `n <= 0`: "invalid argument to Intn". -/
  | invalidArgumentToIntn
  /-- The panic of `xs[i]` for `i` outside `[0, len(xs))`: "index out of range". -/
  | indexOutOfRange
  deriving DecidableEq, Repr

/-- A `*rand.Rand`: a deterministic pseudo-random source. `state` is the
source's current internal state and `gen state n` is the raw value it produces
when asked for a number below `n`, together with its next state. Nothing is
assumed of `gen`: `Intn` below brings the raw value into `[0, n)`, the one
property `math/rand` documents for `Intn`. -/
structure Rand where
  state : Nat
  gen : Nat → Nat → Nat × Nat

/-- The call `r.Intn(n)` of `math/rand`: it panics if `n <= 0`, and otherwise
returns a number in `[0, n)` and advances the source. -/
def Rand.Intn (r : Rand) (n : Nat) : Except GoPanic (Nat × Rand) :=
  if n = 0 then .error .invalidArgumentToIntn
  else .ok ((r.gen r.state n).1 % n, { r with state := (r.gen r.state n).2 })

/-- The struct `Factory`. -/
structure Factory where
  random : Rand
  adjectives : List GoString
  nouns : List GoString

/-- The index expression `xs[i]` on a slice of strings. -/
def index (xs : List GoString) (i : Nat) : Except GoPanic GoString :=
  match xs.get? i with
  | some x => .ok x
  | none => .error .indexOutOfRange

/-- The call `fmt.Sprintf("%s-%s", a, n)`. -/
def sprintf (a n : GoString) : GoString := a ++ hyphen :: n

/-- The method `(f *Factory) Generate() string`: the string returned and the
factory after the call (its random source has advanced), or the panic. -/
def Factory.Generate (f : Factory) : Except GoPanic (GoString × Factory) := do
  let (adjIdx, r1) ← f.random.Intn f.adjectives.length
  let (nounIdx, r2) ← r1.Intn f.nouns.length
  let a ← index f.adjectives adjIdx
  let n ← index f.nouns nounIdx
  pure (sprintf a n, { f with random := r2 })

/-- The source after the first draw of `Generate`. -/
def Factory.afterAdj (f : Factory) : Rand :=
  { f.random with state := (f.random.gen f.random.state f.adjectives.length).2 }

/-- The source after the second draw of `Generate`. -/
def Factory.afterNoun (f : Factory) : Rand :=
  { f.afterAdj with state := (f.afterAdj.gen f.afterAdj.state f.nouns.length).2 }

/-- The index the first draw of `Generate` gives. -/
def Factory.adjIdx (f : Factory) : Nat :=
  (f.random.gen f.random.state f.adjectives.length).1 % f.adjectives.length

/-- The index the second draw of `Generate` gives. -/
def Factory.nounIdx (f : Factory) : Nat :=
  (f.afterAdj.gen f.afterAdj.state f.nouns.length).1 % f.nouns.length

/-- The loop of `TestSamples`, for any number of rounds: `k` successive calls
of `Generate` on the same factory, with the strings they return in order. -/
def Factory.GenerateN : Nat → Factory → Except GoPanic (List GoString × Factory)
  | 0, f => .ok ([], f)
  | k + 1, f => do
    let (s, f1) ← f.Generate
    let (ss, f2) ← Factory.GenerateN k f1
    pure (s :: ss, f2)

/-- The number of hyphens in a string. -/
def hyphens (s : GoString) : Nat := s.count hyphen

/-- The part of a string before its first hyphen (`strings.Cut(s, "-")`, before). -/
def beforeHyphen (s : GoString) : GoString := s.takeWhile (· ≠ hyphen)

/-- The part of a string after its first hyphen (`strings.Cut(s, "-")`, after). -/
def afterHyphen (s : GoString) : GoString := (s.dropWhile (· ≠ hyphen)).tail

/-- A random source whose raw values count up from `v`. -/
def countingRand (v : Nat) : Rand := ⟨v, fun s _ => (s, s + 1)⟩

/-- A factory with two adjectives and three nouns. -/
def sampleFactory : Factory :=
  ⟨countingRand 7, [lit "happy", lit "brave"], [lit "dog", lit "cat", lit "bird"]⟩

/-- A factory whose adjective is hyphenated. -/
def hyphenAdjFactory : Factory := ⟨countingRand 0, [lit "well-off"], [lit "dog"]⟩

/-- A factory whose noun is hyphenated. -/
def hyphenNounFactory : Factory := ⟨countingRand 0, [lit "happy"], [lit "go-kart"]⟩

/-- A factory whose words are empty strings. -/
def emptyWordsFactory : Factory := ⟨countingRand 3, [[]], [[], []]⟩

/-- A factory with adjectives and no noun. -/
def noNounFactory : Factory := ⟨countingRand 0, [lit "happy"], []⟩

/-! ## mkdict.go: filter -/

/-- The constant `minWordLen`. -/
def minWordLen : Nat := 4

/-- The constant `maxWordLen`. -/
def maxWordLen : Nat := 15

/-- The call `strings.ContainsAny(s, chars)` for a set `chars` of ASCII
characters: whether some byte of `s` is one of `chars`. (A byte of a
multi-byte or invalid UTF-8 sequence is 128 or more and so is no ASCII
character: looking at bytes and looking at code points agree.) -/
def ContainsAny (s chars : GoString) : Bool := s.any fun c => chars.contains c

/-- One round of the loop of `filter` on the word `s`, `res` being the words
kept so far: the two `continue` branches leave `res` as it is, and otherwise
`s` is appended. -/
def filterStep (res : List GoString) (s : GoString) : List GoString :=
  if ContainsAny s (lit "_-'0123456789/.") then res
  else if s.length < minWordLen || s.length > maxWordLen then res
  else res ++ [s]

/-- The function `filter(words []string) []string`: the loop over `words`,
starting from the nil slice. -/
def filter (words : List GoString) : List GoString := words.foldl filterStep []

/-- A digit `'0'` to `'9'`. -/
def isDigit (c : Nat) : Prop := '0'.toNat ≤ c ∧ c ≤ '9'.toNat

/-- The characters the specification has the filter reject: underscore,
apostrophe (byte 39), hyphen, digit, forward slash, period. -/
def rejectedChar (c : Nat) : Prop :=
  c = '_'.toNat ∨ c = 39 ∨ c = '-'.toNat ∨ isDigit c ∨ c = '/'.toNat ∨ c = '.'.toNat

/-- The candidates the specification has the filter keep: those with no
rejected character and a length from 4 to 15. -/
def retained (w : GoString) : Prop :=
  (∀ c ∈ w, ¬ rejectedChar c) ∧ 4 ≤ w.length ∧ w.length ≤ 15

instance : DecidablePred isDigit := fun c => by
  unfold isDigit
  infer_instance

instance : DecidablePred rejectedChar := fun c => by
  unfold rejectedChar
  infer_instance

instance : DecidablePred retained := fun w => by
  unfold retained
  infer_instance

/-- A plain ASCII lowercase letter `'a'` to `'z'`. -/
def isLower (c : Nat) : Prop := 'a'.toNat ≤ c ∧ c ≤ 'z'.toNat

instance : DecidablePred isLower := fun c => by
  unfold isLower
  infer_instance

/-- Candidates for the filter, as an index file has them. -/
def sampleWords : List GoString :=
  [lit "cat", lit "happy", lit "well-off", lit "a_priori", lit "happy", lit "1st",
   lit "o'clock", lit "a.k.a.", lit "and/or", lit "dog", lit "otorhinolaryngologist",
   lit "brave", lit "abcdefghijklmno", lit "abcdefghijklmnop", lit "frog"]

/-! ## mkdict.go: parseWords -/

/-- The byte of the line feed. -/
def newline : Nat := '\n'.toNat

/-- The constant `bufio.MaxScanTokenSize`, the size to which the buffer of a
`bufio.Scanner` grows at most. -/
def maxScanTokenSize : Nat := 64 * 1024

/-- The helper `dropCR` of `bufio.ScanLines`: one trailing carriage return is
dropped. -/
def dropCR (data : GoString) : GoString :=
  if data.getLast? = some '\r'.toNat then data.dropLast else data

/-- An `io.Reader` that is read to its end without error: the bytes it gives,
and whether the read that gives the last of them reports `io.EOF` as well
(`io.Reader` allows it) or the end is reported by a later read of no byte. -/
structure Reader where
  data : GoString
  eofWithData : Bool
  deriving DecidableEq, Repr

/-- The tokens that `scn.Scan()` and `scn.Text()` deliver, in order, for a
`bufio.Scanner` with its default split function `ScanLines` and its default
buffer, on a reader that still has the bytes of the first argument to give;
`cur` is the part of the current line read so far.

* At a line feed the current line is delivered, without the line feed and
  without one trailing carriage return.
* At the end of the data a last line without line feed is delivered if it is
  not empty.
* When the current line has filled the buffer (`maxScanTokenSize` bytes and no
  line feed among them) and the end of the data has not been reported, `Scan`
  fails with `ErrTooLong` and returns false: nothing more is delivered. The
  end has been reported only if these are the last bytes and the reader
  reports it with them; the line is the last token then. -/
def scanTokens (eofWithData : Bool) : GoString → GoString → List GoString
  | [], cur => if cur.isEmpty then [] else [dropCR cur]
  | c :: rest, cur =>
    if c = newline then dropCR cur :: scanTokens eofWithData rest []
    else if maxScanTokenSize ≤ cur.length + 1 then
      if eofWithData && rest.isEmpty then [dropCR (cur ++ [c])] else []
    else scanTokens eofWithData rest (cur ++ [c])

/-- The fragment of the `regexp` syntax that the pattern of `parseWords` is
written in. A character class is given as its test on a character. -/
inductive Regexp where
  /-- The assertion `^`: at the beginning of the text. -/
  | beginText : Regexp
  /-- One character of a class, as `[an]`. -/
  | charClass : (Nat → Bool) → Regexp
  /-- One or more characters of a class, as many as possible first: `\s+`. -/
  | plus : (Nat → Bool) → Regexp
  /-- One expression after the other. -/
  | cat : Regexp → Regexp → Regexp
  /-- The capturing group `( )`, group 1 of the pattern. -/
  | capture : Regexp → Regexp

/-- A way for an expression to match at a position: what it matched, the input
left after it, and what group 1 matched if the group took part. -/
structure Match where
  text : GoString
  rest : GoString
  group : Option GoString
  deriving DecidableEq, Repr

/-- The ways for `c+` to match at the beginning of the input, the longest
first (the operator is greedy). -/
def greedy (p : Nat → Bool) : GoString → List Match
  | [] => []
  | c :: rest =>
    if p c then
      ((greedy p rest).map fun m => ⟨c :: m.text, m.rest, none⟩) ++ [⟨[c], rest, none⟩]
    else []

/-- The ways for an expression to match the input `s` that begins at offset
`pos` of the text, in the order in which a backtracking search finds them:
`regexp` returns the match such a search would find first. -/
def Regexp.run : Regexp → Nat → GoString → List Match
  | .beginText, pos, s => if pos = 0 then [⟨[], s, none⟩] else []
  | .charClass _, _, [] => []
  | .charClass p, _, c :: rest => if p c then [⟨[c], rest, none⟩] else []
  | .plus p, _, s => greedy p s
  | .cat r1 r2, pos, s =>
    (r1.run pos s).flatMap fun m1 =>
      (r2.run (pos + m1.text.length) m1.rest).map fun m2 =>
        ⟨m1.text ++ m2.text, m2.rest, m2.group <|> m1.group⟩
  | .capture r, pos, s => (r.run pos s).map fun m => ⟨m.text, m.rest, some m.text⟩

/-- The leftmost match of an expression in a text: the first match at the
earliest offset, from `pos` on, that has one. -/
def Regexp.search (re : Regexp) : Nat → GoString → Option Match
  | pos, [] => (re.run pos []).head?
  | pos, c :: rest =>
    match (re.run pos (c :: rest)).head? with
    | some m => some m
    | none => re.search (pos + 1) rest

/-- The method `re.FindStringSubmatch(s)` for a pattern with one group: nil
when the pattern does not match, and otherwise the slice of the text of the
leftmost match and of the text of group 1. -/
def Regexp.FindStringSubmatch (re : Regexp) (s : GoString) : List GoString :=
  match re.search 0 s with
  | some m => [m.text, m.group.getD []]
  | none => []

/-- The class `\s` of `regexp`: tab, line feed, form feed (byte 12), carriage
return and space. -/
def isSpace (c : Nat) : Bool :=
  c == '\t'.toNat || c == '\n'.toNat || c == 12 || c == '\r'.toNat || c == ' '.toNat

/-- The class `[^\s]`. -/
def notSpace (c : Nat) : Bool := !isSpace c

/-- The class `[an]`. -/
def isMarker (c : Nat) : Bool := c == 'a'.toNat || c == 'n'.toNat

/-- The pattern `scnRE` of `parseWords`, `^([^\s]+)\s+[an]`. A byte of a
multi-byte or invalid UTF-8 sequence is 128 or more, hence in `[^\s]` and
neither in `\s` nor in `[an]`: matching bytes and matching code points give
the same match. -/
def scnRE : Regexp :=
  .cat .beginText (.cat (.capture (.plus notSpace)) (.cat (.plus isSpace) (.charClass isMarker)))

/-- One round of the loop of `parseWords` on the line `text`, `words` being
the words found so far. -/
def parseStep (words : List GoString) (text : GoString) : List GoString :=
  let m := scnRE.FindStringSubmatch text
  if h : 1 < m.length then words ++ [m.get ⟨1, h⟩] else words

/-- The function `parseWords(r io.Reader) []string`. -/
def parseWords (r : Reader) : List GoString :=
  (scanTokens r.eofWithData r.data []).foldl parseStep []

/-- The segments of a text between its line feeds; a last segment that is
empty (the text ends in a line feed, or is empty) is not counted. -/
def rawLines : GoString → List GoString
  | [] => []
  | c :: rest =>
    if c = newline then [] :: rawLines rest
    else
      match rawLines rest with
      | [] => [[c]]
      | l :: ls => (c :: l) :: ls

/-- The lines of what is still to be read, `cur` being the part of the current
line read so far and `lines` the lines of the rest of the text. -/
def joinFirst (cur : GoString) : List GoString → List GoString
  | [] => if cur.isEmpty then [] else [cur]
  | l :: ls => (cur ++ l) :: ls

/-- The lines of a text: its segments between line feeds, each without one
trailing carriage return. -/
def textLines (text : GoString) : List GoString := (rawLines text).map dropCR

/-- The word of a line under the rule of the specification as it is written:
the first field, when the line begins with a non-empty field of
non-whitespace characters, then has one or more whitespace characters, then a
marker `a` or `n` that is followed by whitespace or by the end of the line. -/
def claimedWord (line : GoString) : Option GoString :=
  let word := line.takeWhile notSpace
  let spaces := (line.dropWhile notSpace).takeWhile isSpace
  match (line.dropWhile notSpace).dropWhile isSpace with
  | [] => none
  | c :: rest =>
    if word ≠ [] ∧ spaces ≠ [] ∧ isMarker c = true ∧ (rest = [] ∨ (rest.head?.map isSpace) = some true)
    then some word else none

/-- The word of a line under the rule the pattern implements: the first
field, when the line begins with a non-empty field of non-whitespace
characters, then has one or more whitespace characters, then a character `a`
or `n`. -/
def markedWord (line : GoString) : Option GoString :=
  let word := line.takeWhile notSpace
  let spaces := (line.dropWhile notSpace).takeWhile isSpace
  match (line.dropWhile notSpace).dropWhile isSpace with
  | [] => none
  | c :: _ => if word ≠ [] ∧ spaces ≠ [] ∧ isMarker c = true then some word else none

/-- That the line is `w`, then whitespace, then a character `a` or `n`, then
anything: `w` a non-empty run of non-whitespace characters and the whitespace
one or more characters of `\s`. -/
def Marked (line w : GoString) : Prop :=
  ∃ (ws : GoString) (c : Nat) (rest : GoString),
    line = w ++ ws ++ c :: rest ∧ w ≠ [] ∧ (∀ x ∈ w, isSpace x = false) ∧
    ws ≠ [] ∧ (∀ x ∈ ws, isSpace x = true) ∧ (c = 'a'.toNat ∨ c = 'n'.toNat)

/-- Two lines of an index file and one that begins with a space. -/
def sampleIndex : GoString :=
  lit "happy a 1 3 ...\ncat n 1 5 ...\n  1 This software and database\nable a 3 3 ! & ^ 3 1\r\n"

/-- A text whose first line has `maxScanTokenSize` bytes. -/
def longLineIndex : GoString :=
  List.replicate maxScanTokenSize 'x'.toNat ++ lit "\nhappy a 1 3\n"

/-! ## mkdict.go: NewWNDict -/

/-- The errors `NewWNDict` can return: that of `wnbuf`, that of
`gzip.NewReader` and that of `tr.Next`. -/
inductive GoError where
  | wnbuf
  | gzip
  | tar
  deriving DecidableEq, Repr

/-- The struct `wndict`. -/
structure wndict where
  adjectives : List GoString
  nouns : List GoString
  deriving DecidableEq, Repr

/-- What a call of `tr.Next()` gives before the end of the archive: the header
of the next entry, with its name and with what `tr` then gives as a reader
of the content of the entry, or an error. The end of the list stands for `io.EOF`. -/
inductive TarNext where
  | entry (name : GoString) (content : Reader)
  | err (e : GoError)

/-- The `switch hdr.Name` of the loop of `NewWNDict`, on an entry. -/
def entryStep (d : wndict) (name : GoString) (content : Reader) : wndict :=
  if name = lit "dict/index.adj" then { d with adjectives := parseWords content }
  else if name = lit "dict/index.noun" then { d with nouns := parseWords content }
  else d

/-- The loop `for { hdr, err := tr.Next() ... }` of `NewWNDict`: it ends with
`d` at `io.EOF` and returns the error of `tr.Next` otherwise. -/
def entryLoop : List TarNext → wndict → Except GoError wndict
  | [], d => .ok d
  | .err e :: _, _ => .error e
  | .entry name content :: rest, d => entryLoop rest (entryStep d name content)

/-- The function `NewWNDict() (*wndict, error)`, given the result `buf` of
`wnbuf()` and, for a buffer, the result `gunzip` of `gzip.NewReader` on it:
an error, or what the calls of `tr.Next()` on the decompressed archive give. -/
def NewWNDict (buf : Except GoError GoString)
    (gunzip : GoString → Except GoError (List TarNext)) : Except GoError wndict := do
  let b ← buf
  let entries ← gunzip b
  entryLoop entries { adjectives := [], nouns := [] }

/-- An archive that is read without error: its entries, each a name and a
content, as `tr.Next()` gives them. -/
def archive (entries : List (GoString × Reader)) : List TarNext :=
  entries.map fun e => .entry e.1 e.2

/-- The content of the last entry of an archive that has the given name. -/
def lastNamed (name : GoString) (entries : List (GoString × Reader)) : Option Reader :=
  ((entries.filter fun e => e.1 = name).getLast?).map Prod.snd

/-- The word list for the entry of the given name: `parseWords` of the content
of the last such entry, and the empty list when the archive has none. -/
def wordsOf (name : GoString) (entries : List (GoString × Reader)) : List GoString :=
  match lastNamed name entries with
  | some content => parseWords content
  | none => []

/-- An archive with a noun index, other entries and two adjective indexes. -/
def sampleArchive : List (GoString × Reader) :=
  [(lit "dict/index.adj", ⟨lit "old a 1 1\n", true⟩),
   (lit "dict/index.noun", ⟨lit "cat n 1 5\ndog n 1 2\n", true⟩),
   (lit "dict/data.noun", ⟨lit "zebra n 1 1\n", true⟩),
   (lit "dict/index.adj", ⟨lit "happy a 1 3\n", true⟩),
   (lit "dict/index.verb", ⟨lit "run v 1 1\n", true⟩)]

/-- An archive without the two index entries. -/
def otherArchive : List (GoString × Reader) :=
  [(lit "dict/data.noun", ⟨lit "zebra n 1 1\n", true⟩),
   (lit "dict/index.verb", ⟨lit "run v 1 1\n", true⟩)]

/-! # Theorems -/

/-! ## Properties of the generator -/

/-- The call `Intn` on a positive bound: the value is the raw draw brought below the
bound, and the source has advanced. -/
theorem Rand.Intn_pos (r : Rand) {n : Nat} (h : n ≠ 0) :
    r.Intn n = .ok ((r.gen r.state n).1 % n, { r with state := (r.gen r.state n).2 }) := by
  simp [Rand.Intn, h]

/-- The call `Intn` on the bound 0 panics. -/
theorem Rand.Intn_zero (r : Rand) : r.Intn 0 = .error .invalidArgumentToIntn := by
  simp [Rand.Intn]

/-- An index below the length reads the element. -/
theorem index_lt (xs : List GoString) (i : Nat) (h : i < xs.length) :
    index xs i = .ok (xs.get ⟨i, h⟩) := by
  unfold index
  rw [List.get?_eq_get h]

/-- The first index drawn is below the number of adjectives. -/
theorem Factory.adjIdx_lt (f : Factory) (ha : f.adjectives ≠ []) :
    f.adjIdx < f.adjectives.length :=
  Nat.mod_lt _ (List.length_pos.mpr ha)

/-- The second index drawn is below the number of nouns. -/
theorem Factory.nounIdx_lt (f : Factory) (hn : f.nouns ≠ []) :
    f.nounIdx < f.nouns.length :=
  Nat.mod_lt _ (List.length_pos.mpr hn)

/-- With both lists non-empty, `Generate` returns the two drawn words joined
by a hyphen. -/
theorem Factory.Generate_eq (f : Factory) (ha : f.adjectives ≠ []) (hn : f.nouns ≠ []) :
    f.Generate = .ok (sprintf (f.adjectives.get ⟨f.adjIdx, f.adjIdx_lt ha⟩)
      (f.nouns.get ⟨f.nounIdx, f.nounIdx_lt hn⟩), { f with random := f.afterNoun }) := by
  have hla : f.adjectives.length ≠ 0 := fun h => ha (List.length_eq_zero.mp h)
  have hln : f.nouns.length ≠ 0 := fun h => hn (List.length_eq_zero.mp h)
  have h1 := f.random.Intn_pos hla
  have h2 := f.afterAdj.Intn_pos hln
  have h3 := index_lt f.adjectives f.adjIdx (f.adjIdx_lt ha)
  have h4 := index_lt f.nouns f.nounIdx (f.nounIdx_lt hn)
  unfold Factory.Generate
  rw [h1]
  show (do
    let (nounIdx, r2) ← f.afterAdj.Intn f.nouns.length
    let a ← index f.adjectives f.adjIdx
    let n ← index f.nouns nounIdx
    pure (sprintf a n, { f with random := r2 })) = _
  rw [h2]
  show (do
    let a ← index f.adjectives f.adjIdx
    let n ← index f.nouns f.nounIdx
    pure (sprintf a n, { f with random := f.afterNoun })) = _
  rw [h3, h4]
  rfl

/-- With an empty adjectives list the first draw panics. -/
theorem Factory.Generate_adjectives_nil (f : Factory) (ha : f.adjectives = []) :
    f.Generate = .error .invalidArgumentToIntn := by
  unfold Factory.Generate
  rw [ha, List.length_nil, Rand.Intn_zero]
  rfl

/-- With an empty nouns list the second draw panics. -/
theorem Factory.Generate_nouns_nil (f : Factory) (ha : f.adjectives ≠ [])
    (hn : f.nouns = []) : f.Generate = .error .invalidArgumentToIntn := by
  have hla : f.adjectives.length ≠ 0 := fun h => ha (List.length_eq_zero.mp h)
  unfold Factory.Generate
  rw [f.random.Intn_pos hla, hn, List.length_nil]
  show (do
    let (nounIdx, r2) ← f.afterAdj.Intn 0
    let a ← index f.adjectives f.adjIdx
    let n ← index ([] : List GoString) nounIdx
    pure (sprintf a n, { f with random := r2 })) = _
  rw [Rand.Intn_zero]
  rfl

/-- The hyphens of a joined pair: one more than those of the two words. -/
theorem hyphens_sprintf (a n : GoString) :
    hyphens (sprintf a n) = hyphens a + 1 + hyphens n := by
  simp [hyphens, sprintf, List.count_append, List.count_cons]
  omega

/-- A word without hyphen is what stands before the hyphen of the joined pair. -/
theorem beforeHyphen_sprintf (a n : GoString) (h : hyphen ∉ a) :
    beforeHyphen (sprintf a n) = a := by
  induction a with
  | nil => simp [beforeHyphen, sprintf]
  | cons c a ih =>
    have hc : c ≠ hyphen := fun e => h (by simp [e])
    have ha : hyphen ∉ a := fun m => h (List.mem_cons_of_mem _ m)
    have := ih ha
    simpa [beforeHyphen, sprintf, List.takeWhile_cons, hc] using this

/-- After the hyphen of the joined pair stands the second word, when the first
has no hyphen. -/
theorem afterHyphen_sprintf (a n : GoString) (h : hyphen ∉ a) :
    afterHyphen (sprintf a n) = n := by
  induction a with
  | nil => simp [afterHyphen, sprintf]
  | cons c a ih =>
    have hc : c ≠ hyphen := fun e => h (by simp [e])
    have ha : hyphen ∉ a := fun m => h (List.mem_cons_of_mem _ m)
    have := ih ha
    simpa [afterHyphen, sprintf, List.dropWhile_cons, hc] using this

/-- With one-element lists `Generate` returns the one pair and keeps the lists. -/
theorem Factory.Generate_single (r : Rand) (a n : GoString) :
    ∃ r1 : Rand, (Factory.mk r [a] [n]).Generate = .ok (sprintf a n, Factory.mk r1 [a] [n]) := by
  refine ⟨(Factory.mk r [a] [n]).afterNoun, ?_⟩
  rw [Factory.Generate_eq (Factory.mk r [a] [n]) (by simp) (by simp)]
  simp [Factory.adjIdx, Factory.nounIdx, Nat.mod_one]

/-- With one-element lists `k` calls return `k` times the one pair. -/
theorem Factory.GenerateN_single (k : Nat) (r : Rand) (a n : GoString) :
    ∃ r1 : Rand, (Factory.mk r [a] [n]).GenerateN k
      = .ok (List.replicate k (sprintf a n), Factory.mk r1 [a] [n]) := by
  induction k generalizing r with
  | zero => exact ⟨r, rfl⟩
  | succ k ih =>
    obtain ⟨r1, h1⟩ := Factory.Generate_single r a n
    obtain ⟨r2, h2⟩ := ih r1
    refine ⟨r2, ?_⟩
    unfold Factory.GenerateN
    rw [h1]
    show (do
      let (ss, f2) ← (Factory.mk r1 [a] [n]).GenerateN k
      pure (sprintf a n :: ss, f2)) = _
    rw [h2]
    rfl

/-! ### The claims on `Generate` -/

/-- C1: for a factory with non-empty adjectives and nouns, in every state of
its random source, `Generate` returns `adjectives[i] + "-" + nouns[j]` where
`i < len(adjectives)` is what a first call of `Intn(len(adjectives))` gives
and `j < len(nouns)` what a second call, `Intn(len(nouns))` on the advanced
source, gives; the factory is left with the source after the two draws. -/
theorem Generate_spec (f : Factory) (ha : f.adjectives ≠ []) (hn : f.nouns ≠ []) :
    ∃ (i j : Nat) (r1 r2 : Rand) (hi : i < f.adjectives.length) (hj : j < f.nouns.length),
      f.random.Intn f.adjectives.length = .ok (i, r1) ∧
      r1.Intn f.nouns.length = .ok (j, r2) ∧
      f.Generate = .ok (f.adjectives.get ⟨i, hi⟩ ++ lit "-" ++ f.nouns.get ⟨j, hj⟩,
        { f with random := r2 }) := by
  have hla : f.adjectives.length ≠ 0 := fun h => ha (List.length_eq_zero.mp h)
  have hln : f.nouns.length ≠ 0 := fun h => hn (List.length_eq_zero.mp h)
  refine ⟨f.adjIdx, f.nounIdx, f.afterAdj, f.afterNoun, f.adjIdx_lt ha, f.nounIdx_lt hn,
    f.random.Intn_pos hla, f.afterAdj.Intn_pos hln, ?_⟩
  rw [Factory.Generate_eq f ha hn]
  have hl : lit "-" = [hyphen] := by decide
  simp [sprintf, hl]

/-- C1, at a factory with two adjectives and three nouns, whose source gives
7 and then 8: the indices are 1 and 2 and the codeword is "brave-bird". -/
theorem Generate_spec_witness :
    sampleFactory.adjectives ≠ [] ∧ sampleFactory.nouns ≠ [] ∧
    (∃ (i j : Nat) (r1 r2 : Rand) (hi : i < sampleFactory.adjectives.length)
      (hj : j < sampleFactory.nouns.length),
      sampleFactory.random.Intn sampleFactory.adjectives.length = .ok (i, r1) ∧
      r1.Intn sampleFactory.nouns.length = .ok (j, r2) ∧
      sampleFactory.Generate = .ok (sampleFactory.adjectives.get ⟨i, hi⟩ ++ lit "-" ++
        sampleFactory.nouns.get ⟨j, hj⟩, { sampleFactory with random := r2 })) ∧
    ∃ f1, sampleFactory.Generate = .ok (lit "brave-bird", f1) :=
  ⟨by decide, by decide, Generate_spec sampleFactory (by decide) (by decide), ⟨_, rfl⟩⟩

/-- C2 fails as stated: with the adjective "well-off" and the noun "dog" the
codeword is "well-off-dog", which has two hyphens and "well" before the first;
with the adjective "happy" and the noun "go-kart" the codeword is
"happy-go-kart", which has two hyphens and "go-kart" after the first, while
"kart" stands after the last. -/
theorem Generate_one_hyphen_counterexample :
    (hyphenAdjFactory.adjectives ≠ [] ∧ hyphenAdjFactory.nouns ≠ [] ∧
      (∃ f1, hyphenAdjFactory.Generate = .ok (lit "well-off-dog", f1)) ∧
      hyphens (lit "well-off-dog") = 2 ∧
      beforeHyphen (lit "well-off-dog") = lit "well" ∧
      lit "well" ∉ hyphenAdjFactory.adjectives) ∧
    (hyphenNounFactory.adjectives ≠ [] ∧ hyphenNounFactory.nouns ≠ [] ∧
      (∃ f1, hyphenNounFactory.Generate = .ok (lit "happy-go-kart", f1)) ∧
      hyphens (lit "happy-go-kart") = 2) :=
  ⟨⟨by decide, by decide, ⟨_, rfl⟩, by decide, by decide, by decide⟩,
   ⟨by decide, by decide, ⟨_, rfl⟩, by decide⟩⟩

/-- C2, amended: for a factory with non-empty adjectives and nouns none of
whose words contains a hyphen, in every state of the random source, the
string `Generate` returns contains exactly one hyphen, what stands before it
is an element of the adjectives and what stands after it an element of the
nouns. -/
theorem Generate_one_hyphen (f : Factory) (ha : f.adjectives ≠ []) (hn : f.nouns ≠ [])
    (hA : ∀ w ∈ f.adjectives, hyphen ∉ w) (hN : ∀ w ∈ f.nouns, hyphen ∉ w) :
    ∃ (s : GoString) (f1 : Factory), f.Generate = .ok (s, f1) ∧
      hyphens s = 1 ∧ beforeHyphen s ∈ f.adjectives ∧ afterHyphen s ∈ f.nouns := by
  have ma := List.get_mem f.adjectives f.adjIdx (f.adjIdx_lt ha)
  have mn := List.get_mem f.nouns f.nounIdx (f.nounIdx_lt hn)
  refine ⟨_, _, Factory.Generate_eq f ha hn, ?_, ?_, ?_⟩
  · rw [hyphens_sprintf]
    have h1 : hyphens (f.adjectives.get ⟨f.adjIdx, f.adjIdx_lt ha⟩) = 0 :=
      List.count_eq_zero.mpr (hA _ ma)
    have h2 : hyphens (f.nouns.get ⟨f.nounIdx, f.nounIdx_lt hn⟩) = 0 :=
      List.count_eq_zero.mpr (hN _ mn)
    omega
  · rw [beforeHyphen_sprintf _ _ (hA _ ma)]
    exact ma
  · rw [afterHyphen_sprintf _ _ (hA _ ma)]
    exact mn

/-- C2 amended, at a factory with two adjectives and three nouns: in
"brave-bird" the hyphen stands between "brave" and "bird". -/
theorem Generate_one_hyphen_witness :
    sampleFactory.adjectives ≠ [] ∧ sampleFactory.nouns ≠ [] ∧
    (∀ w ∈ sampleFactory.adjectives, hyphen ∉ w) ∧
    (∀ w ∈ sampleFactory.nouns, hyphen ∉ w) ∧
    (∃ (s : GoString) (f1 : Factory), sampleFactory.Generate = .ok (s, f1) ∧
      hyphens s = 1 ∧ beforeHyphen s ∈ sampleFactory.adjectives ∧
      afterHyphen s ∈ sampleFactory.nouns) ∧
    beforeHyphen (lit "brave-bird") = lit "brave" ∧
    afterHyphen (lit "brave-bird") = lit "bird" :=
  ⟨by decide, by decide, by decide, by decide,
   Generate_one_hyphen sampleFactory (by decide) (by decide) (by decide) (by decide),
   by decide, by decide⟩

/-- C3: for a factory with non-empty adjectives and nouns, in every state of
the random source and whatever the words, `Generate` returns a string, and it
is not the empty string: its length is at least 1. -/
theorem Generate_nonempty (f : Factory) (ha : f.adjectives ≠ []) (hn : f.nouns ≠ []) :
    ∃ (s : GoString) (f1 : Factory), f.Generate = .ok (s, f1) ∧ s ≠ [] ∧ 1 ≤ s.length := by
  refine ⟨_, _, Factory.Generate_eq f ha hn, ?_, ?_⟩
  · simp [sprintf]
  · simp only [sprintf, List.length_append, List.length_cons]
    omega

/-- C3, at a factory whose words are all empty strings: the codeword is "-". -/
theorem Generate_nonempty_witness :
    emptyWordsFactory.adjectives ≠ [] ∧ emptyWordsFactory.nouns ≠ [] ∧
    (∃ (s : GoString) (f1 : Factory), emptyWordsFactory.Generate = .ok (s, f1) ∧
      s ≠ [] ∧ 1 ≤ s.length) ∧
    ∃ f1, emptyWordsFactory.Generate = .ok (lit "-", f1) :=
  ⟨by decide, by decide, Generate_nonempty emptyWordsFactory (by decide) (by decide),
   ⟨_, rfl⟩⟩

/-- C4: `Generate` fails, with the panic of `rand.Intn` on the bound 0, if and
only if the adjectives or the nouns are empty: it panics whenever either is
empty, also when only the nouns are, and it returns a string whenever both are
non-empty. -/
theorem Generate_fails_iff (f : Factory) :
    ((∃ e, f.Generate = .error e) ↔ (f.adjectives = [] ∨ f.nouns = [])) ∧
    ((f.adjectives = [] ∨ f.nouns = []) → f.Generate = .error .invalidArgumentToIntn) ∧
    ((f.adjectives ≠ [] ∧ f.nouns = []) → f.Generate = .error .invalidArgumentToIntn) ∧
    ((f.adjectives ≠ [] ∧ f.nouns ≠ []) → ∃ (s : GoString) (f1 : Factory),
      f.Generate = .ok (s, f1)) := by
  have hfail : (f.adjectives = [] ∨ f.nouns = []) →
      f.Generate = .error .invalidArgumentToIntn := by
    intro h
    by_cases ha : f.adjectives = []
    · exact Factory.Generate_adjectives_nil f ha
    · rcases h with h | h
      · exact absurd h ha
      · exact Factory.Generate_nouns_nil f ha h
  refine ⟨⟨?_, fun h => ⟨_, hfail h⟩⟩, hfail, fun h => hfail (Or.inr h.2),
    fun h => ⟨_, _, Factory.Generate_eq f h.1 h.2⟩⟩
  rintro ⟨e, he⟩
  by_contra hne
  push_neg at hne
  rw [Factory.Generate_eq f hne.1 hne.2] at he
  cases he

/-- C4, at a factory with adjectives and no noun (it panics) and at one with
both (it returns). -/
theorem Generate_fails_iff_witness :
    (noNounFactory.adjectives ≠ [] ∧ noNounFactory.nouns = [] ∧
      noNounFactory.Generate = .error .invalidArgumentToIntn) ∧
    (sampleFactory.adjectives ≠ [] ∧ sampleFactory.nouns ≠ [] ∧
      ∃ (s : GoString) (f1 : Factory), sampleFactory.Generate = .ok (s, f1)) :=
  ⟨⟨by decide, by decide, (Generate_fails_iff noNounFactory).2.2.1 ⟨by decide, by decide⟩⟩,
   ⟨by decide, by decide, (Generate_fails_iff sampleFactory).2.2.2 ⟨by decide, by decide⟩⟩⟩

/-- C5: with one-element lists `[a]` and `[n]`, in every state `r` of the
random source, `Generate` returns `a + "-" + n` and leaves the lists as they
are, so that any number `k` of successive calls returns `k` times that string;
with "happy" and "dog" every call returns "happy-dog". -/
theorem Generate_single_deterministic (r : Rand) (a n : GoString) :
    (∃ r1 : Rand, (Factory.mk r [a] [n]).Generate
      = .ok (a ++ lit "-" ++ n, Factory.mk r1 [a] [n])) ∧
    (∀ k : Nat, ∃ r1 : Rand, (Factory.mk r [a] [n]).GenerateN k
      = .ok (List.replicate k (a ++ lit "-" ++ n), Factory.mk r1 [a] [n])) ∧
    (∃ r1 : Rand, (Factory.mk r [lit "happy"] [lit "dog"]).Generate
      = .ok (lit "happy-dog", Factory.mk r1 [lit "happy"] [lit "dog"])) ∧
    (∀ k : Nat, ∃ r1 : Rand, (Factory.mk r [lit "happy"] [lit "dog"]).GenerateN k
      = .ok (List.replicate k (lit "happy-dog"), Factory.mk r1 [lit "happy"] [lit "dog"])) := by
  have hs : ∀ x y : GoString, x ++ lit "-" ++ y = sprintf x y := by
    intro x y
    have hl : lit "-" = [hyphen] := by decide
    simp [sprintf, hl]
  have hd : lit "happy-dog" = sprintf (lit "happy") (lit "dog") := by decide
  rw [hs, hd]
  exact ⟨Factory.Generate_single r a n, fun k => Factory.GenerateN_single k r a n,
    Factory.Generate_single r _ _, fun k => Factory.GenerateN_single k r _ _⟩

/-! ## Properties of the filter -/

/-- The characters of the set given to `ContainsAny` are the rejected ones. -/
theorem contains_filterChars (c : Nat) :
    (lit "_-'0123456789/.").contains c = true ↔ rejectedChar c := by
  have hl : lit "_-'0123456789/." =
      [95, 45, 39, 48, 49, 50, 51, 52, 53, 54, 55, 56, 57, 47, 46] := by decide
  have h0 : '0'.toNat = 48 := by decide
  have h9 : '9'.toNat = 57 := by decide
  have hu : '_'.toNat = 95 := by decide
  have hh : '-'.toNat = 45 := by decide
  have hs : '/'.toNat = 47 := by decide
  have hp : '.'.toNat = 46 := by decide
  rw [hl]
  simp only [List.contains, List.elem_eq_mem, decide_eq_true_eq, List.mem_cons,
    List.mem_singleton, rejectedChar, isDigit, h0, h9, hu, hh, hs, hp, List.not_mem_nil,
    or_false]
  omega

/-- What `ContainsAny` tests in `filter`: that a rejected character occurs. -/
theorem containsAny_filterChars (w : GoString) :
    ContainsAny w (lit "_-'0123456789/.") = true ↔ ∃ c ∈ w, rejectedChar c := by
  simp only [ContainsAny, List.any_eq_true, contains_filterChars]

/-- One round of the loop keeps exactly a retained word. -/
theorem filterStep_eq (res : List GoString) (w : GoString) :
    filterStep res w = if retained w then res ++ [w] else res := by
  unfold filterStep
  by_cases hc : ContainsAny w (lit "_-'0123456789/.") = true
  · have hr : ¬ retained w := by
      obtain ⟨c, hm, hcr⟩ := (containsAny_filterChars w).mp hc
      exact fun h => h.1 c hm hcr
    simp [hc, hr]
  · have hall : ∀ c ∈ w, ¬ rejectedChar c := fun c hm hcr =>
      hc ((containsAny_filterChars w).mpr ⟨c, hm, hcr⟩)
    by_cases hlen : w.length < minWordLen ∨ w.length > maxWordLen
    · have hr : ¬ retained w := by
        intro h
        have h4 := h.2.1
        have h15 := h.2.2
        unfold minWordLen maxWordLen at hlen
        omega
      simp [hc, hr, hlen]
    · have hr : retained w := by
        refine ⟨hall, ?_, ?_⟩ <;>
        · unfold minWordLen maxWordLen at hlen
          omega
      simp [hc, hr, hlen]

/-- The loop of `filter` from any slice `res`: the retained words are appended
in order. -/
theorem foldl_filterStep (words res : List GoString) :
    words.foldl filterStep res = res ++ words.filter fun w => decide (retained w) := by
  induction words generalizing res with
  | nil => simp
  | cons w ws ih =>
    rw [List.foldl_cons, ih, filterStep_eq]
    by_cases hr : retained w
    · simp [hr, List.filter_cons]
    · simp [hr, List.filter_cons]

/-- The result of `filter` is the list of the retained words of the input. -/
theorem filter_eq (words : List GoString) :
    filter words = words.filter fun w => decide (retained w) := by
  simp [filter, foldl_filterStep]

/-- The words in the output of `filter` are the retained words of the input. -/
theorem mem_filter_iff (words : List GoString) (w : GoString) :
    w ∈ filter words ↔ w ∈ words ∧ retained w := by
  simp [filter_eq, List.mem_filter]

/-! ### The claims on `filter` -/

/-- C6: for every list of candidate words, a word in the output of `filter`
has none of the characters underscore, apostrophe, hyphen, period, slash and
no digit `'0'` to `'9'`, its length `len` is at least `minWordLen` = 4 and at
most `maxWordLen` = 15, and it is an element of the input. -/
theorem filter_output (words : List GoString) (w : GoString) (h : w ∈ filter words) :
    (∀ c ∈ w, c ≠ '_'.toNat ∧ c ≠ 39 ∧ c ≠ '-'.toNat ∧ c ≠ '.'.toNat ∧ c ≠ '/'.toNat ∧
      ¬ ('0'.toNat ≤ c ∧ c ≤ '9'.toNat)) ∧
    minWordLen ≤ w.length ∧ w.length ≤ maxWordLen ∧ minWordLen = 4 ∧ maxWordLen = 15 ∧
    w ∈ words := by
  obtain ⟨hm, hall, h4, h15⟩ := (mem_filter_iff words w).mp h
  refine ⟨fun c hc => ?_, h4, h15, rfl, rfl, hm⟩
  have := hall c hc
  simp only [rejectedChar, isDigit, not_or] at this
  exact ⟨this.1, this.2.1, this.2.2.1, this.2.2.2.2.2, this.2.2.2.2.1, this.2.2.2.1⟩

/-- C6, at the word "happy" of the sample candidates. -/
theorem filter_output_witness :
    lit "happy" ∈ filter sampleWords ∧
    ((∀ c ∈ lit "happy", c ≠ '_'.toNat ∧ c ≠ 39 ∧ c ≠ '-'.toNat ∧ c ≠ '.'.toNat ∧
      c ≠ '/'.toNat ∧ ¬ ('0'.toNat ≤ c ∧ c ≤ '9'.toNat)) ∧
    minWordLen ≤ (lit "happy").length ∧ (lit "happy").length ≤ maxWordLen ∧
    minWordLen = 4 ∧ maxWordLen = 15 ∧ lit "happy" ∈ sampleWords) :=
  ⟨by decide, filter_output sampleWords (lit "happy") (by decide)⟩

/-- C7: for every list of candidate words, `filter` returns the subsequence of
the retained words of the input, those with no underscore, apostrophe, hyphen,
digit, slash or period and a length from 4 to 15: in the order of the input,
each as many times as it occurs there, and no other word; "cat" is rejected
and "happy" is kept. -/
theorem filter_spec (words : List GoString) :
    filter words = words.filter (fun w => decide (retained w)) ∧
    (filter words).Sublist words ∧
    (∀ w, retained w → (filter words).count w = words.count w) ∧
    (∀ w, ¬ retained w → w ∉ filter words) ∧
    filter [lit "cat"] = [] ∧ filter [lit "happy"] = [lit "happy"] := by
  refine ⟨filter_eq words, ?_, ?_, ?_, by decide, by decide⟩
  · rw [filter_eq]
    exact List.filter_sublist words
  · intro w hr
    rw [filter_eq, List.count_filter]
    simpa using hr
  · intro w hr hm
    exact hr ((mem_filter_iff words w).mp hm).2

/-- C7, on the sample candidates: "happy" is kept twice, in place, and "cat",
"well-off" and the 16-letter word are rejected. -/
theorem filter_spec_witness :
    filter sampleWords =
      [lit "happy", lit "happy", lit "brave", lit "abcdefghijklmno", lit "frog"] ∧
    retained (lit "happy") ∧ (filter sampleWords).count (lit "happy") = 2 ∧
    ¬ retained (lit "well-off") ∧ lit "well-off" ∉ filter sampleWords :=
  ⟨by decide, by decide,
   ((filter_spec sampleWords).2.2.1 (lit "happy") (by decide)).trans (by decide),
   by decide, (filter_spec sampleWords).2.2.2.1 (lit "well-off") (by decide)⟩

/-- C8 fails as stated: `filter` keeps "HAPPY", whose letters are uppercase, a
word with a double quote, which needs escaping in a string literal, a word
with a space, and the five bytes of "café", the last two not ASCII. -/
theorem filter_lowercase_counterexample :
    filter [lit "HAPPY", lit "a\"bcd", lit "a bcd", [99, 97, 102, 195, 169]]
      = [lit "HAPPY", lit "a\"bcd", lit "a bcd", [99, 97, 102, 195, 169]] ∧
    ¬ (∀ c ∈ lit "HAPPY", isLower c) ∧ ¬ (∀ c ∈ lit "a\"bcd", isLower c) ∧
    ¬ (∀ c ∈ lit "a bcd", isLower c) ∧
    ¬ (∀ c ∈ ([99, 97, 102, 195, 169] : GoString), isLower c) :=
  ⟨by decide, by decide, by decide, by decide, by decide⟩

/-- C8, amended: for every list of candidate words made only of lowercase
letters `'a'` to `'z'` and of characters the filter rejects (underscore,
apostrophe, hyphen, period, slash, digits), every word in the output of
`filter` consists only of lowercase letters `'a'` to `'z'`. -/
theorem filter_lowercase (words : List GoString)
    (h : ∀ w ∈ words, ∀ c ∈ w, isLower c ∨ rejectedChar c) :
    ∀ w ∈ filter words, ∀ c ∈ w, isLower c := by
  intro w hw c hc
  obtain ⟨hm, hall, -⟩ := (mem_filter_iff words w).mp hw
  exact (h w hm c hc).resolve_right (hall c hc)

/-- C8 amended, on the sample candidates. -/
theorem filter_lowercase_witness :
    (∀ w ∈ sampleWords, ∀ c ∈ w, isLower c ∨ rejectedChar c) ∧
    ∀ w ∈ filter sampleWords, ∀ c ∈ w, isLower c :=
  ⟨by decide, filter_lowercase sampleWords (by decide)⟩

/-! ## Properties of the parser -/

/-- A run of characters of a class, then a character outside it: the run is
what `takeWhile` takes. -/
theorem takeWhile_run (p : Nat → Bool) (w : GoString) (a : Nat) (t : GoString)
    (hw : ∀ x ∈ w, p x = true) (ha : p a = false) : (w ++ a :: t).takeWhile p = w := by
  rw [List.takeWhile_append_of_pos hw, List.takeWhile_cons]
  simp [ha]

/-- A run of characters of a class, then a character outside it: `dropWhile`
leaves what follows the run. -/
theorem dropWhile_run (p : Nat → Bool) (w : GoString) (a : Nat) (t : GoString)
    (hw : ∀ x ∈ w, p x = true) (ha : p a = false) : (w ++ a :: t).dropWhile p = a :: t := by
  rw [List.dropWhile_append_of_pos hw, List.dropWhile_cons]
  simp [ha]

/-- The matches of `c+`: the non-empty prefixes of the input made of
characters of the class. -/
theorem mem_greedy (p : Nat → Bool) (s : GoString) (m : Match) :
    m ∈ greedy p s ↔
      m.group = none ∧ m.text ≠ [] ∧ (∀ x ∈ m.text, p x = true) ∧ s = m.text ++ m.rest := by
  induction s generalizing m with
  | nil =>
    simp only [greedy, List.not_mem_nil, false_iff]
    rintro ⟨-, hne, -, hs⟩
    have := List.append_eq_nil.mp hs.symm
    exact hne this.1
  | cons c rest ih =>
    obtain ⟨t, r, g⟩ := m
    by_cases hp : p c = true
    · simp only [greedy, hp, if_true, List.mem_append, List.mem_map, List.mem_singleton]
      constructor
      · rintro (⟨m1, hm1, he⟩ | he)
        · obtain ⟨hg, hne, hall, hs⟩ := (ih m1).mp hm1
          cases he
          refine ⟨rfl, by simp, ?_, by simp [hs]⟩
          intro x hx
          rcases List.mem_cons.mp hx with rfl | hx
          · exact hp
          · exact hall x hx
        · cases he
          exact ⟨rfl, by simp, by simpa using hp, by simp⟩
      · rintro ⟨hg, hne, hall, hs⟩
        subst hg
        cases t with
        | nil => exact absurd rfl hne
        | cons x t =>
          simp only [List.cons_append, List.cons.injEq] at hs
          obtain ⟨rfl, hs⟩ := hs
          cases t with
          | nil =>
            right
            simp at hs
            simp [hs]
          | cons y t =>
            left
            refine ⟨⟨y :: t, r, none⟩, (ih _).mpr ⟨rfl, by simp, ?_, hs⟩, rfl⟩
            intro z hz
            exact hall z (List.mem_cons_of_mem _ hz)
    · simp only [greedy, hp, Bool.false_eq_true, if_false, List.not_mem_nil, false_iff]
      rintro ⟨-, hne, hall, hs⟩
      cases t with
      | nil => exact hne rfl
      | cons x t =>
        simp only [List.cons_append, List.cons.injEq] at hs
        obtain ⟨rfl, -⟩ := hs
        exact hp (hall c (List.mem_cons_self _ _))

/-- The matches of one character of a class. -/
theorem mem_run_charClass (p : Nat → Bool) (pos : Nat) (s : GoString) (m : Match) :
    m ∈ (Regexp.charClass p).run pos s ↔
      ∃ c rest, s = c :: rest ∧ p c = true ∧ m = ⟨[c], rest, none⟩ := by
  cases s with
  | nil => simp [Regexp.run]
  | cons c rest =>
    by_cases hp : p c = true
    · simp only [Regexp.run, hp, if_true, List.mem_singleton, List.cons.injEq]
      constructor
      · intro h
        exact ⟨c, rest, ⟨rfl, rfl⟩, hp, h⟩
      · rintro ⟨c1, rest1, ⟨rfl, rfl⟩, -, h⟩
        exact h
    · simp only [Regexp.run, hp, Bool.false_eq_true, if_false, List.not_mem_nil, false_iff]
      rintro ⟨c1, rest1, h, hp1, -⟩
      simp only [List.cons.injEq] at h
      obtain ⟨rfl, -⟩ := h
      exact hp hp1

/-- A marker is no whitespace. -/
theorem isSpace_of_isMarker (c : Nat) (h : isMarker c = true) : isSpace c = false := by
  have ha : 'a'.toNat = 97 := by decide
  have hn : 'n'.toNat = 110 := by decide
  have ht : '\t'.toNat = 9 := by decide
  have hl : '\n'.toNat = 10 := by decide
  have hr : '\r'.toNat = 13 := by decide
  have hs : ' '.toNat = 32 := by decide
  simp only [isMarker, ha, hn, Bool.or_eq_true, beq_iff_eq] at h
  simp only [isSpace, ht, hl, hr, hs, Bool.or_eq_false_iff, beq_eq_false_iff_ne]
  omega

/-- The markers are the characters `a` and `n`. -/
theorem isMarker_iff (c : Nat) : isMarker c = true ↔ (c = 'a'.toNat ∨ c = 'n'.toNat) := by
  simp [isMarker]

/-- The matches of the pattern at the beginning of a line: the line is a
field, whitespace, a marker and a rest; the match is all but the rest and
group 1 is the field. -/
theorem mem_run_scnRE (s : GoString) (m : Match) :
    m ∈ scnRE.run 0 s ↔
      ∃ (w ws : GoString) (c : Nat) (rest : GoString),
        s = w ++ ws ++ c :: rest ∧ w ≠ [] ∧ (∀ x ∈ w, isSpace x = false) ∧
        ws ≠ [] ∧ (∀ x ∈ ws, isSpace x = true) ∧ isMarker c = true ∧
        m = ⟨w ++ ws ++ [c], rest, some w⟩ := by
  simp only [scnRE, Regexp.run, if_true, List.flatMap_cons, List.flatMap_nil,
    List.append_nil, List.mem_map, List.mem_flatMap, mem_greedy, List.length_nil,
    Nat.add_zero, List.nil_append, exists_exists_and_eq_and]
  constructor
  · rintro ⟨m1, ⟨m2, ⟨hg2, hne2, hall2, hs2⟩, m3, ⟨m4, ⟨hg4, hne4, hall4, hs4⟩, m5, hm5, rfl⟩, rfl⟩, rfl⟩
    obtain ⟨c, rest, hs5, hc, rfl⟩ := (mem_run_charClass _ _ _ _).mp hm5
    refine ⟨m2.text, m4.text, c, rest, ?_, hne2, ?_, hne4, hall4, hc, ?_⟩
    · rw [hs2, hs4, hs5]
      simp
    · intro x hx
      simpa [notSpace] using hall2 x hx
    · simp [hg4]
  · rintro ⟨w, ws, c, rest, hs, hw, hallw, hws, hallws, hc, rfl⟩
    refine ⟨_, ⟨⟨w, ws ++ c :: rest, none⟩, ⟨rfl, hw, ?_, by simpa using hs⟩, _,
      ⟨⟨ws, c :: rest, none⟩, ⟨rfl, hws, hallws, rfl⟩, _,
        (mem_run_charClass _ _ _ _).mpr ⟨c, rest, rfl, hc, rfl⟩, rfl⟩, rfl⟩, ?_⟩
    · intro x hx
      simpa [notSpace] using hallw x hx
    · simp

/-- The pattern begins with `^`: it does not match from a later offset. -/
theorem run_scnRE_pos (pos : Nat) (s : GoString) (h : pos ≠ 0) : scnRE.run pos s = [] := by
  simp [scnRE, Regexp.run, h]

/-- The search finds nothing from a later offset. -/
theorem search_scnRE_pos (pos : Nat) (s : GoString) (h : pos ≠ 0) :
    scnRE.search pos s = none := by
  induction s generalizing pos with
  | nil => simp [Regexp.search, run_scnRE_pos pos [] h]
  | cons c rest ih =>
    simp [Regexp.search, run_scnRE_pos pos (c :: rest) h, ih (pos + 1) (Nat.succ_ne_zero pos)]

/-- The leftmost match of the pattern is its first match at the beginning. -/
theorem search_scnRE (s : GoString) : scnRE.search 0 s = (scnRE.run 0 s).head? := by
  cases s with
  | nil => rfl
  | cons c rest =>
    unfold Regexp.search
    cases h : (scnRE.run 0 (c :: rest)).head? with
    | none => simpa using search_scnRE_pos 1 rest (by decide)
    | some m => rfl

/-- The rule the pattern implements, computed and stated. -/
theorem markedWord_eq_some (line w : GoString) : markedWord line = some w ↔ Marked line w := by
  constructor
  · intro h
    unfold markedWord at h
    simp only at h
    split at h
    · cases h
    · rename_i c rest hd
      split at h
      · rename_i hc
        obtain ⟨hw, hws, hm⟩ := hc
        cases h
        refine ⟨(line.dropWhile notSpace).takeWhile isSpace, c, rest, ?_, hw, ?_, hws, ?_,
          (isMarker_iff c).mp hm⟩
        · rw [List.append_assoc, ← hd, List.takeWhile_append_dropWhile,
            List.takeWhile_append_dropWhile]
        · intro x hx
          simpa [notSpace] using List.mem_takeWhile_imp hx
        · intro x hx
          exact List.mem_takeWhile_imp hx
      · cases h
  · rintro ⟨ws, c, rest, hl, hw, hallw, hws, hallws, hc⟩
    have hm : isMarker c = true := (isMarker_iff c).mpr hc
    have hcs : isSpace c = false := isSpace_of_isMarker c hm
    obtain ⟨s0, ws1, rfl⟩ := List.exists_cons_of_ne_nil hws
    have hs0 : notSpace s0 = false := by
      simpa [notSpace] using hallws s0 (List.mem_cons_self _ _)
    have hallw1 : ∀ x ∈ w, notSpace x = true := fun x hx => by
      simpa [notSpace] using hallw x hx
    have hl1 : line = w ++ s0 :: (ws1 ++ c :: rest) := by simpa using hl
    have h1 : line.takeWhile notSpace = w := by
      rw [hl1]
      exact takeWhile_run notSpace w s0 _ hallw1 hs0
    have h2 : line.dropWhile notSpace = (s0 :: ws1) ++ c :: rest := by
      rw [hl1]
      exact dropWhile_run notSpace w s0 _ hallw1 hs0
    have h3 : ((s0 :: ws1) ++ c :: rest).takeWhile isSpace = s0 :: ws1 :=
      takeWhile_run isSpace _ c rest hallws hcs
    have h4 : ((s0 :: ws1) ++ c :: rest).dropWhile isSpace = c :: rest :=
      dropWhile_run isSpace _ c rest hallws hcs
    unfold markedWord
    simp only [h1, h2, h3, h4]
    simp [hw, hm]

/-- What `FindStringSubmatch` returns for the pattern on a line: nil when the
rule gives no word, and otherwise a slice whose second element is the word. -/
theorem findStringSubmatch_scnRE (line : GoString) :
    (markedWord line = none ∧ scnRE.FindStringSubmatch line = []) ∨
    (∃ w t, markedWord line = some w ∧ scnRE.FindStringSubmatch line = [t, w]) := by
  unfold Regexp.FindStringSubmatch
  rw [search_scnRE]
  cases h : (scnRE.run 0 line).head? with
  | some m =>
    right
    have hm : m ∈ scnRE.run 0 line := List.mem_of_mem_head? h
    obtain ⟨w, ws, c, rest, hl, hw, hallw, hws, hallws, hc, rfl⟩ := (mem_run_scnRE line m).mp hm
    exact ⟨w, _, (markedWord_eq_some line w).mpr
      ⟨ws, c, rest, hl, hw, hallw, hws, hallws, (isMarker_iff c).mp hc⟩, rfl⟩
  | none =>
    left
    refine ⟨?_, rfl⟩
    have hnil : scnRE.run 0 line = [] := List.head?_eq_none_iff.mp h
    cases hw : markedWord line with
    | none => rfl
    | some w =>
      obtain ⟨ws, c, rest, hl, hw1, hallw, hws, hallws, hc⟩ := (markedWord_eq_some line w).mp hw
      have : (⟨w ++ ws ++ [c], rest, some w⟩ : Match) ∈ scnRE.run 0 line :=
        (mem_run_scnRE line _).mpr
          ⟨w, ws, c, rest, hl, hw1, hallw, hws, hallws, (isMarker_iff c).mpr hc, rfl⟩
      rw [hnil] at this
      cases this

/-- One round of the loop of `parseWords` appends the word of the line, if the
rule gives one. -/
theorem parseStep_eq (words : List GoString) (line : GoString) :
    parseStep words line = words ++ (markedWord line).toList := by
  unfold parseStep
  rcases findStringSubmatch_scnRE line with ⟨hn, hf⟩ | ⟨w, t, hs, hf⟩
  · simp [hn, hf]
  · simp [hs, hf]

/-- The loop of `parseWords` over lines, from any slice of words. -/
theorem foldl_parseStep (lines words : List GoString) :
    lines.foldl parseStep words = words ++ lines.filterMap markedWord := by
  induction lines generalizing words with
  | nil => simp
  | cons l ls ih =>
    rw [List.foldl_cons, ih, parseStep_eq, List.filterMap_cons]
    cases markedWord l <;> simp

/-- The result of `parseWords`: the words of the lines the scanner delivers. -/
theorem parseWords_eq (r : Reader) :
    parseWords r = (scanTokens r.eofWithData r.data []).filterMap markedWord := by
  simp [parseWords, foldl_parseStep]

/-- The scanner delivers the lines of the text when none of them reaches the
size of its buffer. -/
theorem scanTokens_eq (eof : Bool) (text cur : GoString)
    (h : ∀ l ∈ joinFirst cur (rawLines text), l.length < maxScanTokenSize) :
    scanTokens eof text cur = (joinFirst cur (rawLines text)).map dropCR := by
  induction text generalizing cur with
  | nil =>
    cases cur <;> simp [scanTokens, rawLines, joinFirst]
  | cons c rest ih =>
    by_cases hc : c = newline
    · have hrest : ∀ l ∈ joinFirst [] (rawLines rest), l.length < maxScanTokenSize := by
        intro l hl
        apply h
        cases hr : rawLines rest with
        | nil => simp [hr, joinFirst] at hl
        | cons l1 ls =>
          rw [hr] at hl
          simp only [joinFirst, List.nil_append] at hl
          simp [rawLines, hc, joinFirst, hr, List.mem_cons.mp hl]
      have hj : joinFirst [] (rawLines rest) = rawLines rest := by
        cases rawLines rest <;> simp [joinFirst]
      simp only [scanTokens, hc, if_true, rawLines, joinFirst, List.append_nil, List.map_cons]
      rw [ih [] hrest, hj]
    · have hj : joinFirst cur (rawLines (c :: rest)) = joinFirst (cur ++ [c]) (rawLines rest) := by
        cases hr : rawLines rest with
        | nil => simp [rawLines, hc, hr, joinFirst]
        | cons l1 ls => simp [rawLines, hc, hr, joinFirst]
      rw [hj] at h ⊢
      have hlen : ¬ maxScanTokenSize ≤ cur.length + 1 := by
        cases hr : rawLines rest with
        | nil =>
          have := h (cur ++ [c]) (by simp [hr, joinFirst])
          simp only [List.length_append, List.length_singleton] at this
          omega
        | cons l1 ls =>
          have := h (cur ++ [c] ++ l1) (by simp [hr, joinFirst])
          simp only [List.length_append, List.length_singleton] at this
          omega
      simp only [scanTokens, hc, if_false, hlen]
      exact ih (cur ++ [c]) h

/-- The scanner stops in a line that fills its buffer: nothing is delivered
from there on. -/
theorem scanTokens_tooLong (eof : Bool) (k x : Nat) (rest cur : GoString) (hx : x ≠ newline)
    (hrest : rest ≠ []) (hcur : cur.length < maxScanTokenSize)
    (hk : maxScanTokenSize ≤ cur.length + k) :
    scanTokens eof (List.replicate k x ++ rest) cur = [] := by
  induction k generalizing cur with
  | zero => omega
  | succ k ih =>
    simp only [List.replicate_succ, List.cons_append, scanTokens, hx, if_false]
    by_cases hlen : maxScanTokenSize ≤ cur.length + 1
    · simp [hlen, hrest]
    · simp only [hlen, if_false]
      apply ih
      · simp only [List.length_append, List.length_singleton]
        omega
      · simp only [List.length_append, List.length_singleton]
        omega

/-- The segments of a text that begins with a run of one character other than
the line feed, and then a line feed. -/
theorem rawLines_replicate (k x : Nat) (rest : GoString) (hx : x ≠ newline) :
    rawLines (List.replicate k x ++ newline :: rest) = List.replicate k x :: rawLines rest := by
  induction k with
  | zero => simp [rawLines]
  | succ k ih => simp [List.replicate_succ, rawLines, hx, ih]

/-- A run of one character other than the carriage return has none to drop. -/
theorem dropCR_replicate (k x : Nat) (hx : x ≠ '\r'.toNat) :
    dropCR (List.replicate k x) = List.replicate k x := by
  unfold dropCR
  rw [List.getLast?_replicate]
  by_cases hk : k = 0
  · simp [hk]
  · have h13 : '\r'.toNat = 13 := by decide
    rw [h13] at hx
    simp only [hk, if_false, h13, Option.some.injEq, hx]

/-- A line without whitespace has no word under the rule as written. -/
theorem claimedWord_noSpace (line : GoString) (h : ∀ x ∈ line, notSpace x = true) :
    claimedWord line = none := by
  have hd : line.dropWhile notSpace = [] := List.dropWhile_eq_nil_iff.mpr h
  simp [claimedWord, hd]

/-! ### The claim on `parseWords` -/

/-- C9 fails as stated, for a reader of either kind. On the line
"happy apple pie" the pattern matches, the `a` of "apple" standing for the
marker, and `parseWords` returns "happy", while the rule as written gives
nothing, the marker not being delimited. And on a text whose first line has
65536 bytes and whose second line is "happy a 1 3" the scanner stops in the
first line and `parseWords` returns nothing, while the rule as written gives
"happy" for the second line. -/
theorem parseWords_counterexample :
    (parseWords ⟨lit "happy apple pie", false⟩ = [lit "happy"] ∧
      parseWords ⟨lit "happy apple pie", true⟩ = [lit "happy"] ∧
      (textLines (lit "happy apple pie")).filterMap claimedWord = []) ∧
    (parseWords ⟨longLineIndex, false⟩ = [] ∧ parseWords ⟨longLineIndex, true⟩ = [] ∧
      (textLines longLineIndex).filterMap claimedWord = [lit "happy"]) := by
  have hlong : ∀ eof : Bool, parseWords ⟨longLineIndex, eof⟩ = [] := by
    intro eof
    rw [parseWords_eq]
    show List.filterMap markedWord (scanTokens eof
      (List.replicate maxScanTokenSize 'x'.toNat ++ lit "\nhappy a 1 3\n") []) = []
    rw [scanTokens_tooLong eof _ _ _ _ (by decide) (by decide) (by decide) (by simp)]
    rfl
  refine ⟨⟨by decide, by decide, by decide⟩, hlong false, hlong true, ?_⟩
  have hl : lit "\nhappy a 1 3\n" = newline :: lit "happy a 1 3\n" := by decide
  have hns : ∀ x ∈ List.replicate maxScanTokenSize 'x'.toNat, notSpace x = true := by
    intro x hx
    rw [List.eq_of_mem_replicate hx]
    decide
  rw [textLines, longLineIndex, hl, rawLines_replicate _ _ _ (by decide), List.map_cons,
    dropCR_replicate _ _ (by decide), List.filterMap_cons, claimedWord_noSpace _ hns]
  decide

/-- C9, amended: for every index-file text whose lines are each shorter than
65536 bytes, the size of the scanner's buffer, and for a reader of either
kind, `parseWords` returns, in line order and without de-duplication, one word
for each matching line and nothing for any other line, where a line matches
exactly when it begins with a non-empty first field of non-whitespace
characters, followed by one or more whitespace characters (tab, line feed,
form feed, carriage return, space), followed by a character `a` or `n`,
whatever follows that character; the word returned for a matching line is
that whole first field. The line "happy a 1 3 ..." yields "happy", the line
"cat n 1 5 ..." yields "cat", and a line that begins with whitespace yields
nothing. -/
theorem parseWords_spec (r : Reader)
    (h : ∀ l ∈ rawLines r.data, l.length < maxScanTokenSize) :
    parseWords r = (textLines r.data).filterMap markedWord ∧
    (∀ line w, markedWord line = some w ↔ Marked line w) ∧
    (∀ line, markedWord line = none ↔ ∀ w, ¬ Marked line w) ∧
    (∀ eof, parseWords ⟨lit "happy a 1 3 ...", eof⟩ = [lit "happy"]) ∧
    (∀ eof, parseWords ⟨lit "cat n 1 5 ...", eof⟩ = [lit "cat"]) ∧
    (∀ c rest, isSpace c = true → markedWord (c :: rest) = none) := by
  have hj : joinFirst [] (rawLines r.data) = rawLines r.data := by
    cases rawLines r.data <;> simp [joinFirst]
  refine ⟨?_, markedWord_eq_some, ?_, ?_, ?_, ?_⟩
  · rw [parseWords_eq, scanTokens_eq r.eofWithData r.data [] (by rwa [hj]), hj, textLines]
  · intro line
    constructor
    · intro hn w hw
      rw [(markedWord_eq_some line w).mpr hw] at hn
      cases hn
    · intro hall
      cases hw : markedWord line with
      | none => rfl
      | some w => exact absurd ((markedWord_eq_some line w).mp hw) (hall w)
  · intro eof
    cases eof <;> decide
  · intro eof
    cases eof <;> decide
  · intro c rest hc
    have hn : notSpace c = false := by simp [notSpace, hc]
    simp only [markedWord, List.takeWhile_cons, hn]
    split <;> simp

/-- C9 amended, on three lines of an index file and one that begins with a
space. -/
theorem parseWords_spec_witness :
    (∀ l ∈ rawLines sampleIndex, l.length < maxScanTokenSize) ∧
    parseWords ⟨sampleIndex, true⟩ = (textLines sampleIndex).filterMap markedWord ∧
    parseWords ⟨sampleIndex, true⟩ = [lit "happy", lit "cat", lit "able"] :=
  ⟨by decide, (parseWords_spec ⟨sampleIndex, true⟩ (by decide)).1, by decide⟩

/-! ## Properties of the archive loop -/

/-- The last entry of a name, for an archive with one more entry in front. -/
theorem lastNamed_cons (name : GoString) (e : GoString × Reader)
    (entries : List (GoString × Reader)) :
    lastNamed name (e :: entries) =
      (lastNamed name entries).or (if e.1 = name then some e.2 else none) := by
  unfold lastNamed
  by_cases h : e.1 = name
  · simp only [List.filter_cons, h, decide_True, if_true, List.getLast?_cons]
    cases (entries.filter fun e => decide (e.1 = name)).getLast? <;> simp
  · simp only [List.filter_cons, h, decide_False, if_false, Bool.false_eq_true]
    cases (entries.filter fun e => decide (e.1 = name)).getLast? <;> simp

/-- The loop over an archive read without error, from any `d`: each list is
that of the last entry of its name, and is left as in `d` without one. -/
theorem entryLoop_archive (entries : List (GoString × Reader)) (d : wndict) :
    entryLoop (archive entries) d = .ok
      { adjectives := ((lastNamed (lit "dict/index.adj") entries).map parseWords).getD d.adjectives,
        nouns := ((lastNamed (lit "dict/index.noun") entries).map parseWords).getD d.nouns } := by
  induction entries generalizing d with
  | nil => rfl
  | cons e rest ih =>
    have hne : lit "dict/index.adj" ≠ lit "dict/index.noun" := by decide
    simp only [archive, List.map_cons, entryLoop] at ih ⊢
    rw [ih, lastNamed_cons, lastNamed_cons]
    by_cases ha : e.1 = lit "dict/index.adj"
    · have hn : e.1 ≠ lit "dict/index.noun" := fun h => hne (ha.symm.trans h)
      simp only [entryStep, ha, if_true, hn, if_false]
      cases lastNamed (lit "dict/index.adj") rest <;>
        cases lastNamed (lit "dict/index.noun") rest <;> simp [hne]
    · by_cases hn : e.1 = lit "dict/index.noun"
      · simp only [entryStep, hn, hne.symm, if_true, if_false]
        cases lastNamed (lit "dict/index.adj") rest <;>
          cases lastNamed (lit "dict/index.noun") rest <;> simp
      · simp only [entryStep, ha, hn, if_false]
        cases lastNamed (lit "dict/index.adj") rest <;>
          cases lastNamed (lit "dict/index.noun") rest <;> simp

/-- The entries of other names do not count for the last entry of a name. -/
theorem lastNamed_filter (name : GoString) (keep : GoString × Reader → Bool)
    (entries : List (GoString × Reader)) (h : ∀ e, e.1 = name → keep e = true) :
    lastNamed name (entries.filter keep) = lastNamed name entries := by
  unfold lastNamed
  rw [List.filter_filter]
  congr 2
  apply List.filter_congr
  intro e _
  by_cases he : e.1 = name
  · simp [he, h e he]
  · simp [he]

/-! ### The claim on `NewWNDict` -/

/-- C10: on an archive that is read without error, a list of entries each
with a name and a content, the loop of `NewWNDict` returns without error, with
adjectives the `parseWords` of the content of the last entry named
"dict/index.adj" and nouns the `parseWords` of the content of the last entry
named "dict/index.noun"; the other entries do not count, and with no entry of
one of the two names the list for it is empty. -/
theorem NewWNDict_archive (b : GoString) (entries : List (GoString × Reader)) :
    NewWNDict (.ok b) (fun _ => .ok (archive entries)) = .ok
      { adjectives := wordsOf (lit "dict/index.adj") entries,
        nouns := wordsOf (lit "dict/index.noun") entries } ∧
    NewWNDict (.ok b) (fun _ => .ok (archive entries)) =
      NewWNDict (.ok b) (fun _ => .ok (archive (entries.filter fun e =>
        e.1 = lit "dict/index.adj" ∨ e.1 = lit "dict/index.noun"))) ∧
    ((∀ e ∈ entries, e.1 ≠ lit "dict/index.adj") →
      wordsOf (lit "dict/index.adj") entries = []) ∧
    ((∀ e ∈ entries, e.1 ≠ lit "dict/index.noun") →
      wordsOf (lit "dict/index.noun") entries = []) := by
  have hrun : ∀ es : List (GoString × Reader),
      NewWNDict (.ok b) (fun _ => .ok (archive es)) = .ok
        { adjectives := wordsOf (lit "dict/index.adj") es,
          nouns := wordsOf (lit "dict/index.noun") es } := by
    intro es
    show entryLoop (archive es) { adjectives := [], nouns := [] } = _
    rw [entryLoop_archive]
    unfold wordsOf
    cases lastNamed (lit "dict/index.adj") es <;>
      cases lastNamed (lit "dict/index.noun") es <;> rfl
  have hnone : ∀ name : GoString, (∀ e ∈ entries, e.1 ≠ name) → wordsOf name entries = [] := by
    intro name h
    have hf : (entries.filter fun e => decide (e.1 = name)) = [] := by
      rw [List.filter_eq_nil_iff]
      intro e he
      simpa using h e he
    simp [wordsOf, lastNamed, hf]
  refine ⟨hrun entries, ?_, hnone _, hnone _⟩
  rw [hrun, hrun]
  unfold wordsOf
  rw [lastNamed_filter _ _ entries (fun e he => by simp [he]),
    lastNamed_filter _ _ entries (fun e he => by simp [he])]

/-- C10, on an archive with two adjective indexes and on one without index. -/
theorem NewWNDict_archive_witness :
    NewWNDict (.ok []) (fun _ => .ok (archive sampleArchive)) = .ok
      { adjectives := [lit "happy"], nouns := [lit "cat", lit "dog"] } ∧
    (∀ e ∈ otherArchive, e.1 ≠ lit "dict/index.adj") ∧
    (∀ e ∈ otherArchive, e.1 ≠ lit "dict/index.noun") ∧
    NewWNDict (.ok []) (fun _ => .ok (archive otherArchive)) = .ok
      { adjectives := [], nouns := [] } :=
  ⟨(NewWNDict_archive [] sampleArchive).1.trans
      (congrArg Except.ok (by decide :
        (⟨wordsOf (lit "dict/index.adj") sampleArchive,
          wordsOf (lit "dict/index.noun") sampleArchive⟩ : wndict)
          = ⟨[lit "happy"], [lit "cat", lit "dog"]⟩)),
   by decide, by decide,
   (NewWNDict_archive [] otherArchive).1.trans (by
      rw [(NewWNDict_archive [] otherArchive).2.2.1 (by decide),
        (NewWNDict_archive [] otherArchive).2.2.2 (by decide)])⟩

end Codewords
